import Mathlib

/-!
Verification of `deploy_frontend.py`, a single-file deployment helper that
connects to a hosting server over SFTP, clears the remote web-root directory
of its non-hidden entries, and recursively uploads a local build directory.

The remote filesystem under the fixed remote target directory is modelled as
a finite tree (`REnt`); the state visible to the script is `Option REnt`
(the entry at the remote target path, absent when the directory does not
exist).  The local build tree is a tree of `LEnt`, where `LEnt.other` stands
for directory entries that are neither regular files nor directories
(`os.path.isfile` and `os.path.isdir` both false, e.g. a broken symlink).

SFTP operation semantics used by the model (single-threaded, deterministic):
`remove` succeeds exactly on files, `rmdir` succeeds exactly on empty
directories, `listdir` succeeds exactly on directories, `stat` succeeds
exactly on existing paths, `mkdir` creates an empty directory, and `put`
writes a file provided the parent is a directory and the target is not a
directory.  Exceptions are modelled with `Option`/flags.
-/

set_option autoImplicit false

namespace Deploy

/-- A remote filesystem entry: a regular file with its byte content, or a
directory with a named list of children. -/
inductive REnt : Type
  | file (content : List Nat)
  | dir (children : List (String × REnt))

/-- A local filesystem entry.  `other` is an entry for which both
`os.path.isfile` and `os.path.isdir` are false (deploy_frontend.py lines
27-31 silently skips such entries). -/
inductive LEnt : Type
  | file (content : List Nat)
  | dir (children : List (String × LEnt))
  | other

/-- First-occurrence lookup in a named-children list. -/
def lookupA {α : Type} : List (String × α) → String → Option α
  | [], _ => none
  | (m, v) :: rest, n => if m = n then some v else lookupA rest n

/-- Overwrite the first binding of `n` (or append a new binding): the effect
of writing the child `n` of a directory. -/
def setA {α : Type} : List (String × α) → String → α → List (String × α)
  | [], n, v => [(n, v)]
  | (m, w) :: rest, n, v =>
    if m = n then (n, v) :: rest else (m, w) :: setA rest n v

/-- Does the children list bind the name `n`? -/
def hasKey {α : Type} : List (String × α) → String → Bool
  | [], _ => false
  | (m, _) :: rest, n => if m = n then true else hasKey rest n

/-- All names in the children list are distinct (true of any real directory
listing, local or remote). -/
def nodupKeys {α : Type} : List (String × α) → Bool
  | [] => true
  | (m, _) :: rest => !hasKey rest m && nodupKeys rest

/-- Well-formed local tree: every directory listing (`os.listdir`) has
distinct names, recursively. -/
def lwfL (lcs : List (String × LEnt)) : Bool :=
  match lcs with
  | [] => true
  | (n, LEnt.dir ch) :: rest => !hasKey rest n && (lwfL ch && lwfL rest)
  | (n, _) :: rest => !hasKey rest n && lwfL rest
termination_by sizeOf lcs
decreasing_by all_goals (simp_wf <;> omega)

/-- `sftp.remove` (lines 52 and 60): deleting a path directly succeeds
exactly when it names a file; on a directory the server refuses and an
exception is raised. -/
def removeOk : REnt → Bool
  | .file _ => true
  | .dir _ => false

/-- The hidden-name test `item.startswith('.')` (line 49): true exactly when
the first character of the name is the hidden-file marker. -/
def isHiddenName (s : String) : Bool :=
  match s.data with
  | [] => false
  | c :: _ => c = '.'

/-- Does an optional remote entry hold a directory? -/
def isDirO : Option REnt → Bool
  | some (.dir _) => true
  | _ => false

/-- The `sftp.stat`/`sftp.mkdir` preamble of `upload_directory` (lines
17-21): if the probe finds no entry, an empty directory is created; an
existing entry of either kind is left as is. -/
def ensureEnt : Option REnt → REnt
  | none => .dir []
  | some e => e

/-- `sftp.put(local_path, remote_path)` (line 29), acting on the parent
directory entry: fails if the parent is not a directory or if the target
name is bound to a directory; otherwise writes the file, unconditionally
overwriting an existing file of that name. -/
def putChild : REnt → String → List Nat → Option REnt
  | .file _, _, _ => none
  | .dir cs, n, c =>
    match lookupA cs n with
    | some (.dir _) => none
    | _ => some (.dir (setA cs n (.file c)))

/-- The loop body of `upload_directory` (lines 23-31), iterating over the
local listing with the current remote entry `e` at remote path `p` (path is
carried only to record the transfer trace).  Returns the trace of successful
`put` transfers (path, bytes) together with the final remote entry, or
`none` when an exception aborted the walk. -/
def upload_items (p : List String) (e : REnt) (lcs : List (String × LEnt)) :
    List (List String × List Nat) × Option REnt :=
  match lcs with
  | [] => ([], some e)
  | (n, LEnt.file c) :: rest =>
    match putChild e n c with
    | none => ([], none)
    | some e1 =>
      let r := upload_items p e1 rest
      ((p ++ [n], c) :: r.1, r.2)
  | (n, LEnt.dir ch) :: rest =>
    match e with
    | .file _ => ([], none)
    | .dir cs =>
      match upload_items (p ++ [n]) (ensureEnt (lookupA cs n)) ch with
      | (tr, none) => (tr, none)
      | (tr, some w) =>
        let r := upload_items p (REnt.dir (setA cs n w)) rest
        (tr ++ r.1, r.2)
  | (_, LEnt.other) :: rest => upload_items p e rest
termination_by sizeOf lcs
decreasing_by all_goals (simp_wf <;> omega)

/-- `upload_directory(sftp, local_dir, remote_dir)` (lines 14-31) acting on
the remote entry `cur` at remote path `p`, with `lcs` the listing (with
kinds and contents) of the local directory. -/
def upload_directory (p : List String) (cur : Option REnt) (lcs : List (String × LEnt)) :
    List (List String × List Nat) × Option REnt :=
  upload_items p (ensureEnt cur) lcs

/-- The loop of `rmdir_recursive` (lines 57-62) over a snapshot listing:
for each child, try `sftp.remove`; on failure (a directory) recurse into it
and, if the recursion and its final `rmdir` succeed, the child is gone.
Returns the remaining children together with `true`, or, when an exception
escapes, the residual children list together with `false`. -/
def clear_children (cs : List (String × REnt)) : List (String × REnt) × Bool :=
  match cs with
  | [] => ([], true)
  | (n, e) :: rest =>
    if removeOk e then clear_children rest
    else
      match e with
      | .file c => ((n, .file c) :: rest, false)
      | .dir ch =>
        match clear_children ch with
        | (rem, false) => ((n, .dir rem) :: rest, false)
        | (rem, true) =>
          if rem.isEmpty then clear_children rest
          else ((n, .dir rem) :: rest, false)
termination_by sizeOf cs
decreasing_by all_goals (simp_wf <;> omega)

/-- `rmdir_recursive(path)` (lines 56-63) on the entry at that path:
`none` means the entry was removed entirely (the final `sftp.rmdir`
succeeded); `some e1` means an exception escaped, leaving residue `e1`
(on a file, the opening `sftp.listdir` itself raises). -/
def rmdir_recursive (e : REnt) : Option REnt :=
  match e with
  | .file c => some (.file c)
  | .dir cs =>
    match clear_children cs with
    | (rem, false) => some (.dir rem)
    | (rem, true) => if rem.isEmpty then none else some (.dir rem)

/-- The top-level cleanup loop (lines 48-65) over the snapshot listing of
the remote target directory: hidden names (leading '.') are skipped;
otherwise `sftp.remove` is attempted and, on failure, `rmdir_recursive`
runs.  Returns the remaining top-level children and a flag telling whether
the loop finished without an escaping exception. -/
def clean_top (cs : List (String × REnt)) : List (String × REnt) × Bool :=
  match cs with
  | [] => ([], true)
  | (n, e) :: rest =>
    if isHiddenName n then
      let r := clean_top rest
      ((n, e) :: r.1, r.2)
    else if removeOk e then clean_top rest
    else
      match rmdir_recursive e with
      | none => clean_top rest
      | some e1 => ((n, e1) :: rest, false)

/-- The cleanup phase with its enclosing `try`/`except` (lines 47-67): if
the opening `sftp.listdir(REMOTE_DIR)` fails (absent target, or the target
is a file), a warning is printed and the state is untouched; otherwise the
loop runs and any escaping exception is likewise caught as a warning,
keeping whatever state the loop reached. -/
def cleanup_phase : Option REnt → Option REnt
  | none => none
  | some (.file c) => some (.file c)
  | some (.dir cs) => some (.dir (clean_top cs).1)

/-- Fixed server host (line 5). -/
def HOST : String := "37.140.192.181"

/-- Fixed server port (line 6). -/
def PORT : Nat := 22

/-- Fixed login (line 7). -/
def USERNAME : String := "u3372484"

/-- Fixed password (line 8). -/
def PASSWORD : String := "j758aqXHELv2l2AM"

/-- Connection timeout in seconds passed to `ssh.connect` (line 40). -/
def CONNECT_TIMEOUT : Nat := 30

/-- The paramiko missing-host-key policies the script could have chosen. -/
inductive HostKeyPolicy : Type
  | autoAdd
  | rejectUnknown

/-- Line 37: `ssh.set_missing_host_key_policy(paramiko.AutoAddPolicy())`. -/
def missing_host_key_policy : HostKeyPolicy := .autoAdd

/-- Whether a policy lets a connection to a host with an unknown identity
proceed. -/
def acceptsUnknownHosts : HostKeyPolicy → Bool
  | .autoAdd => true
  | .rejectUnknown => false

/-- `main()` (lines 33-84).  `conn n` tells whether the `n`-th connection
attempt would succeed; the script performs the single attempt `0`.  `r` is
the entry at the remote target directory, `lcs` the local build tree
listing.  On success the final remote state is returned; any exception
escaping the `try` block is printed and re-raised (lines 82-84), modelled
as `Except.error`.  The final `sftp.listdir(REMOTE_DIR)` (line 75) fails
when the remote target is a file. -/
def main (conn : Nat → Bool) (r : Option REnt) (lcs : List (String × LEnt)) :
    Except String (Option REnt) :=
  if conn 0 then
    match (upload_directory [] (cleanup_phase r) lcs).2 with
    | none => Except.error "upload failed"
    | some (.file _) => Except.error "final listing failed"
    | some (.dir vs) => Except.ok (some (REnt.dir vs))
  else Except.error "connection failed"

/-! ### Observation functions (used only to state properties) -/

/-- Resolve a path relative to the remote target directory. -/
def getPath : Option REnt → List String → Option REnt
  | cur, [] => cur
  | some (.dir cs), n :: q => getPath (lookupA cs n) q
  | some (.file _), _ :: _ => none
  | none, _ :: _ => none

/-- Resolve a path inside a local tree. -/
def nodeL : LEnt → List String → Option LEnt
  | e, [] => some e
  | .dir ch, n :: q =>
    match lookupA ch n with
    | some e => nodeL e q
    | none => none
  | .file _, _ :: _ => none
  | .other, _ :: _ => none

/-- The hidden (dot-named) top-level entries, which cleanup preserves. -/
def keepHidden (cs : List (String × REnt)) : List (String × REnt) :=
  cs.filter (fun x => isHiddenName x.1)

/-- Is a local listing made of `other` entries only?  (Exactly then does
`upload_directory` perform no remote write for it.) -/
def allOther : List (String × LEnt) → Bool
  | [] => true
  | (_, LEnt.other) :: rest => allOther rest
  | (_, LEnt.file _) :: _ => false
  | (_, LEnt.dir _) :: _ => false

/-- The files of a local tree in traversal order of `upload_directory`,
with their remote paths: the transfer schedule of a fully successful
upload. -/
def fileSeq (p : List String) (lcs : List (String × LEnt)) :
    List (List String × List Nat) :=
  match lcs with
  | [] => []
  | (n, LEnt.file c) :: rest => (p ++ [n], c) :: fileSeq p rest
  | (n, LEnt.dir ch) :: rest => fileSeq (p ++ [n]) ch ++ fileSeq p rest
  | (_, LEnt.other) :: rest => fileSeq p rest
termination_by sizeOf lcs
decreasing_by all_goals (simp_wf <;> omega)

/-- State-update-free success criterion for the upload loop run from the
directory children `cs`: per local entry, a file must not collide with a
remote subdirectory of the same name, and a subdirectory must be uploadable
into the corresponding remote child. -/
def canUpItems (cs : List (String × REnt)) (lcs : List (String × LEnt)) : Bool :=
  match lcs with
  | [] => true
  | (n, LEnt.file _) :: rest => !isDirO (lookupA cs n) && canUpItems cs rest
  | (n, LEnt.dir ch) :: rest =>
    (match ensureEnt (lookupA cs n) with
     | .file _ => allOther ch
     | .dir cs2 => canUpItems cs2 ch) && canUpItems cs rest
  | (_, LEnt.other) :: rest => canUpItems cs rest
termination_by sizeOf lcs
decreasing_by all_goals (simp_wf <;> omega)

/-- The per-entry condition of `canUpItems`. -/
def condB (cs : List (String × REnt)) : String × LEnt → Bool
  | (n, LEnt.file _) => !isDirO (lookupA cs n)
  | (n, LEnt.dir ch) =>
    (match ensureEnt (lookupA cs n) with
     | .file _ => allOther ch
     | .dir cs2 => canUpItems cs2 ch)
  | (_, LEnt.other) => true


/-! ### Fault-aware cleanup

The deterministic semantics above never makes a per-entry operation of the
cleanup loop fail except where the entry kind forces it.  Real servers can
refuse an operation for environmental reasons (most commonly missing
permission), and the `try`/`except` at lines 47-67 wraps the whole loop, so
such an exception is caught there no matter where it arises.  To settle the
propagation-policy claim the cleanup phase is embedded a second time over
the same trees, parameterized by a fault environment. -/

/-- A fault environment: `deny p = true` means `sftp.remove` on the path
`p` (relative to the remote target directory) fails for an environmental
reason such as missing permission, even when the entry is a file.  The
all-false environment recovers the base model. -/
def noFaults : List String → Bool := fun _ => false

/-- The environment denying removal exactly at one path. -/
def denyOn (bad : List String) : List String → Bool := fun p => decide (p = bad)

/-- `sftp.remove` under a fault environment: succeeds when the entry is a
file and the environment does not deny the path. -/
def fremove_ok (deny : List String → Bool) (p : List String) (e : REnt) : Bool :=
  !deny p && removeOk e

/-- The loop of `rmdir_recursive` (lines 57-62) under a fault environment;
same structure as `clear_children`, with `sftp.remove` on path `p ++ [n]`
able to fail by denial.  A file child whose removal was denied sends the
fallback into `sftp.listdir` on a file, which raises at once. -/
def fclear_children (deny : List String → Bool) (p : List String)
    (cs : List (String × REnt)) : List (String × REnt) × Bool :=
  match cs with
  | [] => ([], true)
  | (n, e) :: rest =>
    if fremove_ok deny (p ++ [n]) e then fclear_children deny p rest
    else
      match e with
      | .file c => ((n, .file c) :: rest, false)
      | .dir ch =>
        match fclear_children deny (p ++ [n]) ch with
        | (rem, false) => ((n, .dir rem) :: rest, false)
        | (rem, true) =>
          if rem.isEmpty then fclear_children deny p rest
          else ((n, .dir rem) :: rest, false)
termination_by sizeOf cs
decreasing_by all_goals (simp_wf <;> omega)

/-- `rmdir_recursive(path)` (lines 56-63) under a fault environment. -/
def frmdir_recursive (deny : List String → Bool) (p : List String) (e : REnt) :
    Option REnt :=
  match e with
  | .file c => some (.file c)
  | .dir cs =>
    match fclear_children deny p cs with
    | (rem, false) => some (.dir rem)
    | (rem, true) => if rem.isEmpty then none else some (.dir rem)

/-- The top-level cleanup loop (lines 48-65) under a fault environment; a
top-level entry `n` lives at relative path `[n]`. -/
def fclean_top (deny : List String → Bool) (cs : List (String × REnt)) :
    List (String × REnt) × Bool :=
  match cs with
  | [] => ([], true)
  | (n, e) :: rest =>
    if isHiddenName n then
      let r := fclean_top deny rest
      ((n, e) :: r.1, r.2)
    else if fremove_ok deny [n] e then fclean_top deny rest
    else
      match frmdir_recursive deny [n] e with
      | none => fclean_top deny rest
      | some e1 => ((n, e1) :: rest, false)

/-- The cleanup phase with its enclosing `try`/`except` (lines 47-67) under
a fault environment: the handler catches any exception escaping the loop —
not just the opening listing failure — prints a warning, and keeps whatever
state the loop reached. -/
def fcleanup_phase (deny : List String → Bool) : Option REnt → Option REnt
  | none => none
  | some (.file c) => some (.file c)
  | some (.dir cs) => some (.dir (fclean_top deny cs).1)

/-- `main()` (lines 33-84) with the fault-aware cleanup phase. -/
def fmain (deny : List String → Bool) (conn : Nat → Bool) (r : Option REnt)
    (lcs : List (String × LEnt)) : Except String (Option REnt) :=
  if conn 0 then
    match (upload_directory [] (fcleanup_phase deny r) lcs).2 with
    | none => Except.error "upload failed"
    | some (.file _) => Except.error "final listing failed"
    | some (.dir vs) => Except.ok (some (REnt.dir vs))
  else Except.error "connection failed"

/-! ### Association-list lemmas -/

theorem lookupA_setA_self {α : Type} (cs : List (String × α)) (n : String) (v : α) :
    lookupA (setA cs n v) n = some v := by
  induction cs with
  | nil => simp [setA, lookupA]
  | cons hd tl ih =>
    obtain ⟨m, w⟩ := hd
    by_cases h : m = n
    · simp [setA, h, lookupA]
    · simp [setA, h, lookupA, ih]

theorem lookupA_setA_ne {α : Type} (cs : List (String × α)) (n m : String) (v : α)
    (h : n ≠ m) : lookupA (setA cs n v) m = lookupA cs m := by
  induction cs with
  | nil => simp [setA, lookupA, h]
  | cons hd tl ih =>
    obtain ⟨k, w⟩ := hd
    by_cases hk : k = n
    · subst hk
      simp [setA, lookupA, h]
    · by_cases hkm : k = m <;> simp [setA, hk, lookupA, hkm, ih, Ne.symm h]

theorem setA_lookup_eq {α : Type} (cs : List (String × α)) (n : String) (v : α)
    (h : lookupA cs n = some v) : setA cs n v = cs := by
  induction cs with
  | nil => simp [lookupA] at h
  | cons hd tl ih =>
    obtain ⟨m, w⟩ := hd
    by_cases hm : m = n
    · subst hm
      simp [lookupA] at h
      simp [setA, h]
    · simp [lookupA, hm] at h
      simp [setA, hm, ih h]

theorem hasKey_false_lookupA {α : Type} (cs : List (String × α)) (n : String)
    (h : hasKey cs n = false) : lookupA cs n = none := by
  induction cs with
  | nil => simp [lookupA]
  | cons hd tl ih =>
    obtain ⟨m, w⟩ := hd
    by_cases hm : m = n
    · simp [hasKey, hm] at h
    · simp [hasKey, hm] at h
      simp [lookupA, hm, ih h]

theorem mem_hasKey {α : Type} (cs : List (String × α)) (n : String) (v : α)
    (h : (n, v) ∈ cs) : hasKey cs n = true := by
  induction cs with
  | nil => simp at h
  | cons hd tl ih =>
    obtain ⟨m, w⟩ := hd
    rcases List.mem_cons.1 h with h1 | h2
    · obtain ⟨rfl, rfl⟩ := Prod.mk.injEq .. ▸ h1
      simp_all [hasKey]
    · by_cases hm : m = n <;> simp [hasKey, hm, ih h2]

theorem lookupA_of_mem {α : Type} (cs : List (String × α)) (n : String) (v : α)
    (hnd : nodupKeys cs = true) (h : (n, v) ∈ cs) : lookupA cs n = some v := by
  induction cs with
  | nil => simp at h
  | cons hd tl ih =>
    obtain ⟨m, w⟩ := hd
    simp [nodupKeys, Bool.and_eq_true] at hnd
    rcases List.mem_cons.1 h with h1 | h2
    · obtain ⟨rfl, rfl⟩ := Prod.mk.injEq .. ▸ h1
      simp [lookupA]
    · have hm : m ≠ n := by
        intro hh
        subst hh
        exact absurd (mem_hasKey tl m v h2) (by simp [hnd.1])
      simp [lookupA, hm, ih hnd.2 h2]

theorem lookupA_keepHidden (cs : List (String × REnt)) (n : String) :
    lookupA (keepHidden cs) n =
      if isHiddenName n then lookupA cs n else none := by
  induction cs with
  | nil => simp [keepHidden, lookupA]
  | cons hd tl ih =>
    obtain ⟨m, e⟩ := hd
    by_cases hm : isHiddenName m
    · by_cases hmn : m = n
      · subst hmn
        simp [keepHidden, List.filter_cons, hm, lookupA] at ih ⊢
      · simp [keepHidden, List.filter_cons, hm, lookupA, hmn] at ih ⊢
        exact ih
    · by_cases hmn : m = n
      · subst hmn
        simp [keepHidden, List.filter_cons, hm, lookupA] at ih ⊢
        simp [ih, hm]
      · simp [keepHidden, List.filter_cons, hm, lookupA, hmn] at ih ⊢
        exact ih

/-! ### Cleanup-phase lemmas -/

theorem clear_children_eq (cs : List (String × REnt)) :
    clear_children cs = ([], true) := by
  induction cs using clear_children.induct with
  | case1 => simp [clear_children]
  | case2 n e rest h ih =>
    rw [clear_children.eq_def]
    simp [h, ih]
  | case3 n rest c h =>
    simp [removeOk] at h
  | case4 n rest ch rem hcc h ih =>
    rw [ih] at hcc
    simp at hcc
  | case5 n rest ch rem hcc hemp h ih ih2 =>
    rw [clear_children.eq_def]
    simp [removeOk, hcc, hemp, ih2]
  | case6 n rest ch rem hcc hemp h ih =>
    rw [ih] at hcc
    obtain ⟨rfl, -⟩ := Prod.mk.injEq .. ▸ hcc.symm
    simp at hemp

theorem rmdir_recursive_dir (cs : List (String × REnt)) :
    rmdir_recursive (REnt.dir cs) = none := by
  simp [rmdir_recursive, clear_children_eq]

theorem clean_top_eq (cs : List (String × REnt)) :
    clean_top cs = (keepHidden cs, true) := by
  induction cs with
  | nil => simp [clean_top, keepHidden]
  | cons hd tl ih =>
    obtain ⟨n, e⟩ := hd
    by_cases hn : isHiddenName n
    · rw [clean_top]
      simp [hn, ih, keepHidden, List.filter_cons]
    · cases e with
      | file c =>
        rw [clean_top]
        simp [hn, removeOk, ih, keepHidden, List.filter_cons]
      | dir ch =>
        rw [clean_top]
        simp [hn, removeOk, rmdir_recursive_dir, ih, keepHidden, List.filter_cons]


/-! ### Unfolding equations for the well-founded definitions -/

theorem lwfL_nil : lwfL [] = true := by
  rw [lwfL.eq_def]

theorem lwfL_cons_dir (n : String) (ch rest : List (String × LEnt)) :
    lwfL ((n, LEnt.dir ch) :: rest) = (!hasKey rest n && (lwfL ch && lwfL rest)) := by
  rw [lwfL.eq_def]

theorem lwfL_cons_file (n : String) (c : List Nat) (rest : List (String × LEnt)) :
    lwfL ((n, LEnt.file c) :: rest) = (!hasKey rest n && lwfL rest) := by
  rw [lwfL.eq_def]

theorem lwfL_cons_other (n : String) (rest : List (String × LEnt)) :
    lwfL ((n, LEnt.other) :: rest) = (!hasKey rest n && lwfL rest) := by
  rw [lwfL.eq_def]

theorem up_nil (p : List String) (e : REnt) : upload_items p e [] = ([], some e) := by
  rw [upload_items.eq_def]

theorem upf_none (p : List String) (e : REnt) (n : String) (c : List Nat)
    (rest : List (String × LEnt)) (h : putChild e n c = none) :
    upload_items p e ((n, LEnt.file c) :: rest) = ([], none) := by
  rw [upload_items.eq_def]
  simp [h]

theorem upf_some (p : List String) (e : REnt) (n : String) (c : List Nat)
    (rest : List (String × LEnt)) (e1 : REnt) (h : putChild e n c = some e1) :
    upload_items p e ((n, LEnt.file c) :: rest) =
      ((p ++ [n], c) :: (upload_items p e1 rest).1, (upload_items p e1 rest).2) := by
  rw [upload_items.eq_def]
  simp [h]

theorem updir_file (p : List String) (c : List Nat) (n : String)
    (ch rest : List (String × LEnt)) :
    upload_items p (REnt.file c) ((n, LEnt.dir ch) :: rest) = ([], none) := by
  rw [upload_items.eq_def]

theorem updir_none (p : List String) (cs : List (String × REnt)) (n : String)
    (ch rest : List (String × LEnt)) (tr : List (List String × List Nat))
    (h : upload_items (p ++ [n]) (ensureEnt (lookupA cs n)) ch = (tr, none)) :
    upload_items p (REnt.dir cs) ((n, LEnt.dir ch) :: rest) = (tr, none) := by
  rw [upload_items.eq_def]
  simp [h]

theorem updir_some (p : List String) (cs : List (String × REnt)) (n : String)
    (ch rest : List (String × LEnt)) (tr : List (List String × List Nat)) (w : REnt)
    (h : upload_items (p ++ [n]) (ensureEnt (lookupA cs n)) ch = (tr, some w)) :
    upload_items p (REnt.dir cs) ((n, LEnt.dir ch) :: rest) =
      (tr ++ (upload_items p (REnt.dir (setA cs n w)) rest).1,
       (upload_items p (REnt.dir (setA cs n w)) rest).2) := by
  rw [upload_items.eq_def]
  simp [h]

theorem up_other (p : List String) (e : REnt) (n : String)
    (rest : List (String × LEnt)) :
    upload_items p e ((n, LEnt.other) :: rest) = upload_items p e rest := by
  rw [upload_items.eq_def]

theorem cu_nil (cs : List (String × REnt)) : canUpItems cs [] = true := by
  rw [canUpItems.eq_def]

theorem cu_file (cs : List (String × REnt)) (n : String) (c : List Nat)
    (rest : List (String × LEnt)) :
    canUpItems cs ((n, LEnt.file c) :: rest) =
      (!isDirO (lookupA cs n) && canUpItems cs rest) := by
  rw [canUpItems.eq_def]

theorem cu_dir (cs : List (String × REnt)) (n : String)
    (ch rest : List (String × LEnt)) :
    canUpItems cs ((n, LEnt.dir ch) :: rest) =
      ((match ensureEnt (lookupA cs n) with
        | REnt.file _ => allOther ch
        | REnt.dir cs2 => canUpItems cs2 ch) && canUpItems cs rest) := by
  rw [canUpItems.eq_def]

theorem cu_other (cs : List (String × REnt)) (n : String)
    (rest : List (String × LEnt)) :
    canUpItems cs ((n, LEnt.other) :: rest) = canUpItems cs rest := by
  rw [canUpItems.eq_def]

theorem fs_nil (p : List String) : fileSeq p [] = [] := by
  rw [fileSeq.eq_def]

theorem fs_file (p : List String) (n : String) (c : List Nat)
    (rest : List (String × LEnt)) :
    fileSeq p ((n, LEnt.file c) :: rest) = (p ++ [n], c) :: fileSeq p rest := by
  rw [fileSeq.eq_def]

theorem fs_dir (p : List String) (n : String) (ch rest : List (String × LEnt)) :
    fileSeq p ((n, LEnt.dir ch) :: rest) = fileSeq (p ++ [n]) ch ++ fileSeq p rest := by
  rw [fileSeq.eq_def]

theorem fs_other (p : List String) (n : String) (rest : List (String × LEnt)) :
    fileSeq p ((n, LEnt.other) :: rest) = fileSeq p rest := by
  rw [fileSeq.eq_def]

/-! ### Local well-formedness helpers -/

theorem lwf_nodup (lcs : List (String × LEnt)) (h : lwfL lcs = true) :
    nodupKeys lcs = true := by
  induction lcs with
  | nil => rfl
  | cons hd tl ih =>
    obtain ⟨n, e⟩ := hd
    cases e with
    | file c =>
      rw [lwfL_cons_file, Bool.and_eq_true] at h
      simp [nodupKeys, Bool.and_eq_true, h.1, ih h.2]
    | dir ch =>
      rw [lwfL_cons_dir, Bool.and_eq_true, Bool.and_eq_true] at h
      simp [nodupKeys, Bool.and_eq_true, h.1, ih h.2.2]
    | other =>
      rw [lwfL_cons_other, Bool.and_eq_true] at h
      simp [nodupKeys, Bool.and_eq_true, h.1, ih h.2]

theorem lwf_lookup_dir (lcs : List (String × LEnt)) (n : String)
    (ch : List (String × LEnt)) (h : lwfL lcs = true)
    (hl : lookupA lcs n = some (LEnt.dir ch)) : lwfL ch = true := by
  induction lcs with
  | nil => simp [lookupA] at hl
  | cons hd tl ih =>
    obtain ⟨m, e⟩ := hd
    by_cases hm : m = n
    · subst hm
      simp [lookupA] at hl
      subst hl
      rw [lwfL_cons_dir, Bool.and_eq_true, Bool.and_eq_true] at h
      exact h.2.1
    · simp [lookupA, hm] at hl
      cases e with
      | file c =>
        rw [lwfL_cons_file, Bool.and_eq_true] at h
        exact ih h.2 hl
      | dir ch2 =>
        rw [lwfL_cons_dir, Bool.and_eq_true, Bool.and_eq_true] at h
        exact ih h.2.2 hl
      | other =>
        rw [lwfL_cons_other, Bool.and_eq_true] at h
        exact ih h.2 hl

theorem allOther_lookupA (lcs : List (String × LEnt)) (n : String) (le : LEnt)
    (h : allOther lcs = true) (hl : lookupA lcs n = some le) : le = LEnt.other := by
  induction lcs with
  | nil => simp [lookupA] at hl
  | cons hd tl ih =>
    obtain ⟨m, e⟩ := hd
    cases e with
    | file c => simp [allOther] at h
    | dir ch => simp [allOther] at h
    | other =>
      by_cases hm : m = n
      · subst hm
        simp [lookupA] at hl
        exact hl.symm
      · simp [lookupA, hm] at hl
        exact ih (by simpa [allOther] using h) hl

/-- `upload_directory` run from a remote entry that is a file: the existence
probe succeeds, nothing is created, every regular-file or directory child
fails, so the run succeeds exactly when the local listing holds nothing but
special entries, and then the remote file survives untouched. -/
theorem up_file (lcs : List (String × LEnt)) (p : List String) (c : List Nat) :
    upload_items p (REnt.file c) lcs =
      ([], if allOther lcs = true then some (REnt.file c) else none) := by
  induction lcs with
  | nil => simp [up_nil, allOther]
  | cons hd tl ih =>
    obtain ⟨n, e⟩ := hd
    cases e with
    | file c2 =>
      rw [upf_none p _ n c2 tl (by rfl)]
      simp [allOther]
    | dir ch =>
      rw [updir_file]
      simp [allOther]
    | other =>
      rw [up_other, ih]
      simp [allOther]

/-! ### putChild helpers -/

theorem putChild_some (cs : List (String × REnt)) (n : String) (c : List Nat)
    (e1 : REnt) (h : putChild (REnt.dir cs) n c = some e1) :
    e1 = REnt.dir (setA cs n (REnt.file c)) ∧ isDirO (lookupA cs n) = false := by
  cases hl : lookupA cs n with
  | none =>
    simp [putChild, hl] at h
    exact ⟨h.symm, by simp [isDirO]⟩
  | some e =>
    cases e with
    | file c2 =>
      simp [putChild, hl] at h
      exact ⟨h.symm, by simp [isDirO]⟩
    | dir ds =>
      simp [putChild, hl] at h

theorem putChild_none (cs : List (String × REnt)) (n : String) (c : List Nat)
    (h : putChild (REnt.dir cs) n c = none) : isDirO (lookupA cs n) = true := by
  cases hl : lookupA cs n with
  | none => simp [putChild, hl] at h
  | some e =>
    cases e with
    | file c2 => simp [putChild, hl] at h
    | dir ds => simp [isDirO]

theorem putChild_of_not_dir (cs : List (String × REnt)) (n : String) (c : List Nat)
    (h : isDirO (lookupA cs n) = false) :
    putChild (REnt.dir cs) n c = some (REnt.dir (setA cs n (REnt.file c))) := by
  cases hl : lookupA cs n with
  | none => simp [putChild, hl]
  | some e =>
    cases e with
    | file c2 => simp [putChild, hl]
    | dir ds => rw [hl] at h; simp [isDirO] at h

/-! ### Characterization of a successful upload run -/

/-- A successful run of the upload loop from directory children `cs` yields a
directory whose child at name `n` is: the local file's bytes if the local
listing has a file named `n`; the result of recursively uploading the local
subdirectory named `n` over the original remote child; and the untouched
original remote child if the local listing has no file or directory named
`n`. -/
theorem upload_items_lookup (lcs : List (String × LEnt)) (p : List String)
    (cs : List (String × REnt)) (v : REnt)
    (hnd : nodupKeys lcs = true)
    (hv : (upload_items p (REnt.dir cs) lcs).2 = some v) :
    ∃ vs, v = REnt.dir vs ∧ ∀ n : String,
      (∀ c, lookupA lcs n = some (LEnt.file c) → lookupA vs n = some (REnt.file c)) ∧
      (∀ ch, lookupA lcs n = some (LEnt.dir ch) →
        ∃ w, (upload_items (p ++ [n]) (ensureEnt (lookupA cs n)) ch).2 = some w ∧
          lookupA vs n = some w) ∧
      ((lookupA lcs n = none ∨ lookupA lcs n = some LEnt.other) →
        lookupA vs n = lookupA cs n) := by
  induction lcs generalizing cs v with
  | nil =>
    rw [up_nil] at hv
    simp at hv
    refine ⟨cs, hv.symm, fun n => ⟨?_, ?_, ?_⟩⟩
    · intro c hc
      simp [lookupA] at hc
    · intro ch hc
      simp [lookupA] at hc
    · intro _
      rfl
  | cons hd rest ih =>
    obtain ⟨m, ent⟩ := hd
    simp only [nodupKeys, Bool.and_eq_true, Bool.not_eq_true'] at hnd
    cases ent with
    | file c0 =>
      cases hput : putChild (REnt.dir cs) m c0 with
      | none =>
        rw [upf_none p _ m c0 rest hput] at hv
        simp at hv
      | some e1 =>
        obtain ⟨rfl, -⟩ := putChild_some cs m c0 e1 hput
        rw [upf_some p _ m c0 rest _ hput] at hv
        simp only at hv
        obtain ⟨vs, rfl, hP⟩ := ih (setA cs m (REnt.file c0)) v hnd.2 hv
        refine ⟨vs, rfl, fun n => ⟨?_, ?_, ?_⟩⟩
        · intro c hc
          by_cases hnm : m = n
          · subst hnm
            simp [lookupA] at hc
            subst hc
            have hrm : lookupA rest m = none :=
              hasKey_false_lookupA rest m hnd.1
            have := (hP m).2.2 (Or.inl hrm)
            rw [this, lookupA_setA_self]
          · simp [lookupA, hnm] at hc
            exact (hP n).1 c hc
        · intro ch hc
          by_cases hnm : m = n
          · subst hnm
            simp [lookupA] at hc
          · simp [lookupA, hnm] at hc
            obtain ⟨w, hw1, hw2⟩ := (hP n).2.1 ch hc
            rw [lookupA_setA_ne cs m n _ (fun hh => hnm hh)] at hw1
            exact ⟨w, hw1, hw2⟩
        · intro hc
          by_cases hnm : m = n
          · subst hnm
            simp [lookupA] at hc
          · simp [lookupA, hnm] at hc
            have h3 := (hP n).2.2 hc
            rw [lookupA_setA_ne cs m n _ (fun hh => hnm hh)] at h3
            exact h3
    | dir ch0 =>
      cases hin : upload_items (p ++ [m]) (ensureEnt (lookupA cs m)) ch0 with
      | mk tr wo =>
        cases wo with
        | none =>
          rw [updir_none p cs m ch0 rest tr hin] at hv
          simp at hv
        | some w =>
          rw [updir_some p cs m ch0 rest tr w hin] at hv
          obtain ⟨vs, rfl, hP⟩ := ih (setA cs m w) v hnd.2 hv
          refine ⟨vs, rfl, fun n => ⟨?_, ?_, ?_⟩⟩
          · intro c hc
            by_cases hnm : m = n
            · subst hnm
              simp [lookupA] at hc
            · simp [lookupA, hnm] at hc
              exact (hP n).1 c hc
          · intro ch hc
            by_cases hnm : m = n
            · subst hnm
              simp [lookupA] at hc
              subst hc
              refine ⟨w, by rw [hin], ?_⟩
              have hrm : lookupA rest m = none :=
                hasKey_false_lookupA rest m hnd.1
              have := (hP m).2.2 (Or.inl hrm)
              rw [this, lookupA_setA_self]
            · simp [lookupA, hnm] at hc
              obtain ⟨w2, hw1, hw2⟩ := (hP n).2.1 ch hc
              rw [lookupA_setA_ne cs m n _ (fun hh => hnm hh)] at hw1
              exact ⟨w2, hw1, hw2⟩
          · intro hc
            by_cases hnm : m = n
            · subst hnm
              simp [lookupA] at hc
            · simp [lookupA, hnm] at hc
              have h3 := (hP n).2.2 hc
              rw [lookupA_setA_ne cs m n _ (fun hh => hnm hh)] at h3
              exact h3
    | other =>
      rw [up_other] at hv
      obtain ⟨vs, rfl, hP⟩ := ih cs v hnd.2 hv
      refine ⟨vs, rfl, fun n => ⟨?_, ?_, ?_⟩⟩
      · intro c hc
        by_cases hnm : m = n
        · subst hnm
          simp [lookupA] at hc
        · simp [lookupA, hnm] at hc
          exact (hP n).1 c hc
      · intro ch hc
        by_cases hnm : m = n
        · subst hnm
          simp [lookupA] at hc
        · simp [lookupA, hnm] at hc
          exact (hP n).2.1 ch hc
      · intro hc
        by_cases hnm : m = n
        · subst hnm
          exact (hP m).2.2 (Or.inl (hasKey_false_lookupA rest m hnd.1))
        · simp [lookupA, hnm] at hc
          exact (hP n).2.2 hc

/-! ### Success criterion for the upload loop -/

theorem canUpItems_congr (lcs : List (String × LEnt)) (cs1 cs2 : List (String × REnt))
    (h : ∀ m, hasKey lcs m = true → lookupA cs2 m = lookupA cs1 m) :
    canUpItems cs2 lcs = canUpItems cs1 lcs := by
  induction lcs with
  | nil => rw [cu_nil, cu_nil]
  | cons hd rest ih =>
    obtain ⟨n, ent⟩ := hd
    have hn : lookupA cs2 n = lookupA cs1 n := h n (by simp [hasKey])
    have hrest : ∀ m, hasKey rest m = true → lookupA cs2 m = lookupA cs1 m := by
      intro m hm
      apply h
      by_cases hnm : n = m <;> simp [hasKey, hnm, hm]
    cases ent with
    | file c => rw [cu_file, cu_file, hn, ih hrest]
    | dir ch => rw [cu_dir, cu_dir, hn, ih hrest]
    | other => rw [cu_other, cu_other, ih hrest]

theorem canUpItems_nil_left (lcs : List (String × LEnt)) :
    canUpItems [] lcs = true := by
  induction lcs using lwfL.induct with
  | case1 => rw [cu_nil]
  | case2 n ch rest ihch ihrest =>
    rw [cu_dir]
    simp [lookupA, ensureEnt, ihch, ihrest]
  | case3 n e rest hne ihrest =>
    cases e with
    | file c =>
      rw [cu_file]
      simp [lookupA, isDirO, ihrest]
    | dir ch => exact absurd rfl (hne ch)
    | other =>
      rw [cu_other]
      exact ihrest

/-- A run of the upload loop from directory children `cs` over a
well-formed local listing succeeds exactly when the state-free criterion
`canUpItems` holds. -/
theorem upload_items_isSome (lcs : List (String × LEnt)) :
    lwfL lcs = true → ∀ (p : List String) (cs : List (String × REnt)),
      (upload_items p (REnt.dir cs) lcs).2.isSome = canUpItems cs lcs := by
  induction lcs using lwfL.induct with
  | case1 =>
    intro _ p cs
    rw [up_nil, cu_nil]
    rfl
  | case2 n ch rest ihch ihrest =>
    intro h p cs
    rw [lwfL_cons_dir] at h
    simp only [Bool.and_eq_true, Bool.not_eq_true'] at h
    obtain ⟨hk, hch, hrest⟩ := h
    have hcongr : ∀ w, canUpItems (setA cs n w) rest = canUpItems cs rest := by
      intro w
      apply canUpItems_congr
      intro m hm
      have hnm : n ≠ m := by
        intro hh
        subst hh
        rw [hm] at hk
        cases hk
      exact lookupA_setA_ne cs n m w hnm
    cases hE : ensureEnt (lookupA cs n) with
    | file c0 =>
      cases hao : allOther ch with
      | true =>
        have hin : upload_items (p ++ [n]) (ensureEnt (lookupA cs n)) ch =
            ([], some (REnt.file c0)) := by
          rw [hE, up_file, hao]
          simp
        rw [updir_some p cs n ch rest [] (REnt.file c0) hin, cu_dir, hE, hao]
        rw [ihrest hrest p (setA cs n (REnt.file c0)), hcongr]
        simp
      | false =>
        have hin : upload_items (p ++ [n]) (ensureEnt (lookupA cs n)) ch =
            ([], none) := by
          rw [hE, up_file, hao]
          simp
        rw [updir_none p cs n ch rest [] hin, cu_dir, hE, hao]
        simp
    | dir cs2 =>
      have hiff := ihch hch (p ++ [n]) cs2
      cases hin : upload_items (p ++ [n]) (ensureEnt (lookupA cs n)) ch with
      | mk tr wo =>
        have hin2 : upload_items (p ++ [n]) (REnt.dir cs2) ch = (tr, wo) := hE ▸ hin
        rw [hin2] at hiff
        cases wo with
        | none =>
          simp only [Option.isSome_none] at hiff
          rw [updir_none p cs n ch rest tr hin, cu_dir, hE]
          simp [← hiff]
        | some w =>
          simp only [Option.isSome_some] at hiff
          rw [updir_some p cs n ch rest tr w hin, cu_dir, hE]
          simp [← hiff, ihrest hrest p (setA cs n w), hcongr]
  | case3 n e rest hne ihrest =>
    intro h p cs
    cases e with
    | dir ch => exact absurd rfl (hne ch)
    | other =>
      rw [lwfL_cons_other] at h
      simp only [Bool.and_eq_true, Bool.not_eq_true'] at h
      rw [up_other, cu_other]
      exact ihrest h.2 p cs
    | file c =>
      rw [lwfL_cons_file] at h
      simp only [Bool.and_eq_true, Bool.not_eq_true'] at h
      obtain ⟨hk, hrest⟩ := h
      cases hd : isDirO (lookupA cs n) with
      | true =>
        have hput : putChild (REnt.dir cs) n c = none := by
          cases hl : lookupA cs n with
          | none => rw [hl] at hd; simp [isDirO] at hd
          | some w =>
            cases w with
            | file c2 => rw [hl] at hd; simp [isDirO] at hd
            | dir ds => simp [putChild, hl]
        rw [upf_none p _ n c rest hput, cu_file, hd]
        simp
      | false =>
        rw [upf_some p _ n c rest _ (putChild_of_not_dir cs n c hd), cu_file, hd]
        simp only
        rw [ihrest hrest p (setA cs n (REnt.file c))]
        have : canUpItems (setA cs n (REnt.file c)) rest = canUpItems cs rest := by
          apply canUpItems_congr
          intro m hm
          have hnm : n ≠ m := by
            intro hh
            subst hh
            rw [hm] at hk
            cases hk
          exact lookupA_setA_ne cs n m _ hnm
        rw [this]
        simp

theorem canUpItems_forall (cs : List (String × REnt)) (lcs : List (String × LEnt)) :
    canUpItems cs lcs = true ↔ ∀ x ∈ lcs, condB cs x = true := by
  induction lcs with
  | nil => simp [cu_nil]
  | cons hd rest ih =>
    obtain ⟨n, ent⟩ := hd
    cases ent with
    | file c =>
      rw [cu_file]
      simp [condB, Bool.and_eq_true, ih]
    | dir ch =>
      rw [cu_dir]
      simp [condB, Bool.and_eq_true, ih]
    | other =>
      rw [cu_other]
      simp [condB, ih]

/-! ### Idempotence of the upload loop -/

/-- Re-running the upload loop over its own successful result changes
nothing: every transfer rewrites the bytes already present. -/
theorem upload_items_idem (lcs : List (String × LEnt)) :
    lwfL lcs = true → ∀ (p : List String) (e v : REnt),
      (upload_items p e lcs).2 = some v → (upload_items p v lcs).2 = some v := by
  induction lcs using lwfL.induct with
  | case1 =>
    intro _ p e v _
    rw [up_nil]
  | case2 n ch rest ihch ihrest =>
    intro h p e v hv
    rw [lwfL_cons_dir] at h
    simp only [Bool.and_eq_true, Bool.not_eq_true'] at h
    obtain ⟨hk, hch, hrest⟩ := h
    cases e with
    | file c0 =>
      rw [updir_file] at hv
      simp at hv
    | dir cs =>
      cases hin : upload_items (p ++ [n]) (ensureEnt (lookupA cs n)) ch with
      | mk tr wo =>
        cases wo with
        | none =>
          rw [updir_none p cs n ch rest tr hin] at hv
          simp at hv
        | some w =>
          rw [updir_some p cs n ch rest tr w hin] at hv
          obtain ⟨vs, rfl, hP⟩ :=
            upload_items_lookup rest p (setA cs n w) v (lwf_nodup rest hrest) hv
          have hvn : lookupA vs n = some w := by
            have h0 := (hP n).2.2 (Or.inl (hasKey_false_lookupA rest n hk))
            rw [h0, lookupA_setA_self]
          have hw : (upload_items (p ++ [n]) w ch).2 = some w :=
            ihch hch (p ++ [n]) (ensureEnt (lookupA cs n)) w (by rw [hin])
          cases hin2 : upload_items (p ++ [n]) w ch with
          | mk tr2 wo2 =>
            rw [hin2] at hw
            simp only at hw
            subst hw
            have hpair : upload_items (p ++ [n]) (ensureEnt (lookupA vs n)) ch =
                (tr2, some w) := by
              rw [hvn]
              simpa [ensureEnt] using hin2
            rw [updir_some p vs n ch rest tr2 w hpair,
              setA_lookup_eq vs n w hvn]
            exact ihrest hrest p (REnt.dir (setA cs n w)) (REnt.dir vs) hv
  | case3 n e rest hne ihrest =>
    intro h p e0 v hv
    cases e with
    | dir ch => exact absurd rfl (hne ch)
    | other =>
      rw [lwfL_cons_other] at h
      simp only [Bool.and_eq_true, Bool.not_eq_true'] at h
      rw [up_other] at hv ⊢
      exact ihrest h.2 p e0 v hv
    | file c =>
      rw [lwfL_cons_file] at h
      simp only [Bool.and_eq_true, Bool.not_eq_true'] at h
      obtain ⟨hk, hrest⟩ := h
      cases hput : putChild e0 n c with
      | none =>
        rw [upf_none p _ n c rest hput] at hv
        simp at hv
      | some e1 =>
        rw [upf_some p _ n c rest _ hput] at hv
        simp only at hv
        cases e0 with
        | file c0 => simp [putChild] at hput
        | dir cs =>
          obtain ⟨rfl, -⟩ := putChild_some cs n c e1 hput
          obtain ⟨vs, rfl, hP⟩ :=
            upload_items_lookup rest p (setA cs n (REnt.file c)) v
              (lwf_nodup rest hrest) hv
          have hvn : lookupA vs n = some (REnt.file c) := by
            have h0 := (hP n).2.2 (Or.inl (hasKey_false_lookupA rest n hk))
            rw [h0, lookupA_setA_self]
          have hput2 : putChild (REnt.dir vs) n c = some (REnt.dir vs) := by
            rw [putChild_of_not_dir vs n c (by rw [hvn]; rfl),
              setA_lookup_eq vs n (REnt.file c) hvn]
          rw [upf_some p _ n c rest _ hput2]
          simp only
          exact ihrest hrest p (REnt.dir (setA cs n (REnt.file c))) (REnt.dir vs) hv

/-! ### Transfer trace of the upload loop -/

/-- The transfers an upload run performs are always an initial segment of
the traversal-order file schedule, and a successful run performs exactly
the whole schedule. -/
theorem upload_items_trace (p : List String) (lcs : List (String × LEnt)) :
    ∀ e : REnt,
      (∃ t2, fileSeq p lcs = (upload_items p e lcs).1 ++ t2) ∧
      ((upload_items p e lcs).2.isSome = true →
        (upload_items p e lcs).1 = fileSeq p lcs) := by
  induction p, lcs using fileSeq.induct with
  | case1 p =>
    intro e
    rw [fs_nil, up_nil]
    exact ⟨⟨[], rfl⟩, fun _ => rfl⟩
  | case2 p n c rest ih =>
    intro e
    cases hput : putChild e n c with
    | none =>
      rw [upf_none p _ n c rest hput, fs_file]
      refine ⟨⟨(p ++ [n], c) :: fileSeq p rest, rfl⟩, ?_⟩
      intro hcontra
      simp at hcontra
    | some e1 =>
      rw [upf_some p _ n c rest _ hput, fs_file]
      obtain ⟨⟨t2, ht2⟩, hc⟩ := ih e1
      refine ⟨⟨t2, by simp [ht2]⟩, ?_⟩
      intro hs
      simp only at hs
      simp [hc hs]
  | case3 p n ch rest ihch ihrest =>
    intro e
    cases e with
    | file c0 =>
      rw [updir_file, fs_dir]
      refine ⟨⟨fileSeq (p ++ [n]) ch ++ fileSeq p rest, rfl⟩, ?_⟩
      intro hcontra
      simp at hcontra
    | dir cs =>
      cases hin : upload_items (p ++ [n]) (ensureEnt (lookupA cs n)) ch with
      | mk tr wo =>
        obtain ⟨⟨t2, ht2⟩, hcch⟩ := ihch (ensureEnt (lookupA cs n))
        rw [hin] at ht2 hcch
        simp only at ht2 hcch
        cases wo with
        | none =>
          rw [updir_none p cs n ch rest tr hin, fs_dir]
          refine ⟨⟨t2 ++ fileSeq p rest, ?_⟩, ?_⟩
          · rw [ht2, List.append_assoc]
          · intro hcontra
            simp at hcontra
        | some w =>
          have htr : tr = fileSeq (p ++ [n]) ch := hcch rfl
          rw [updir_some p cs n ch rest tr w hin, fs_dir]
          obtain ⟨⟨t2r, ht2r⟩, hcr⟩ := ihrest (REnt.dir (setA cs n w))
          refine ⟨⟨t2r, ?_⟩, ?_⟩
          · rw [← htr, ht2r, List.append_assoc]
          · intro hs
            simp only at hs
            rw [hcr hs, htr]
  | case4 p n rest ihrest =>
    intro e
    rw [up_other, fs_other]
    exact ihrest e

/-! ### Mirror property of the upload walk -/

/-- After a successful upload run, every local file has a byte-identical
remote counterpart at the matching relative path, and every local directory
either has a remote directory counterpart or coincides with a pre-existing
remote file, which is only possible when the local directory holds no
regular file or subdirectory. -/
theorem upload_node (q : List String) :
    ∀ (lcs : List (String × LEnt)) (p : List String) (e v : REnt),
      lwfL lcs = true → (upload_items p e lcs).2 = some v →
      (∀ c, nodeL (LEnt.dir lcs) q = some (LEnt.file c) →
        getPath (some v) q = some (REnt.file c)) ∧
      (∀ ch, nodeL (LEnt.dir lcs) q = some (LEnt.dir ch) →
        (∃ ds, getPath (some v) q = some (REnt.dir ds)) ∨
        (∃ bc, getPath (some v) q = some (REnt.file bc) ∧ allOther ch = true)) := by
  induction q with
  | nil =>
    intro lcs p e v hw hv
    constructor
    · intro c hc
      simp [nodeL] at hc
    · intro ch hc
      simp [nodeL] at hc
      subst hc
      cases e with
      | file c0 =>
        rw [up_file] at hv
        cases hao : allOther lcs with
        | true =>
          rw [hao] at hv
          simp at hv
          exact Or.inr ⟨c0, by simp [getPath, ← hv], rfl⟩
        | false =>
          rw [hao] at hv
          simp at hv
      | dir cs =>
        obtain ⟨vs, rfl, -⟩ := upload_items_lookup lcs p cs v (lwf_nodup lcs hw) hv
        exact Or.inl ⟨vs, by simp [getPath]⟩
  | cons n q ihq =>
    intro lcs p e v hw hv
    cases hln : lookupA lcs n with
    | none =>
      constructor
      · intro c hc
        simp [nodeL, hln] at hc
      · intro ch hc
        simp [nodeL, hln] at hc
    | some le =>
      cases e with
      | file c0 =>
        rw [up_file] at hv
        cases hao : allOther lcs with
        | false =>
          rw [hao] at hv
          simp at hv
        | true =>
          have hle : le = LEnt.other := allOther_lookupA lcs n le hao hln
          subst hle
          constructor
          · intro c hc
            cases q <;> simp [nodeL, hln] at hc
          · intro ch hc
            cases q <;> simp [nodeL, hln] at hc
      | dir cs =>
        obtain ⟨vs, rfl, hP⟩ := upload_items_lookup lcs p cs v (lwf_nodup lcs hw) hv
        cases le with
        | file c1 =>
          have hvn : lookupA vs n = some (REnt.file c1) := (hP n).1 c1 hln
          constructor
          · intro c hc
            cases q with
            | nil =>
              simp [nodeL, hln] at hc
              subst hc
              simp [getPath, hvn]
            | cons m q2 =>
              simp [nodeL, hln] at hc
          · intro ch hc
            cases q with
            | nil => simp [nodeL, hln] at hc
            | cons m q2 => simp [nodeL, hln] at hc
        | other =>
          constructor
          · intro c hc
            cases q <;> simp [nodeL, hln] at hc
          · intro ch hc
            cases q <;> simp [nodeL, hln] at hc
        | dir ch1 =>
          obtain ⟨w, hw1, hw2⟩ := (hP n).2.1 ch1 hln
          have hlch : lwfL ch1 = true := lwf_lookup_dir lcs n ch1 hw hln
          have hrec := ihq ch1 (p ++ [n]) (ensureEnt (lookupA cs n)) w hlch hw1
          constructor
          · intro c hc
            have hc2 : nodeL (LEnt.dir ch1) q = some (LEnt.file c) := by
              simpa [nodeL, hln] using hc
            have := hrec.1 c hc2
            simpa [getPath, hw2] using this
          · intro ch hc
            have hc2 : nodeL (LEnt.dir ch1) q = some (LEnt.dir ch) := by
              simpa [nodeL, hln] using hc
            have hgp : getPath (some (REnt.dir vs)) (n :: q) = getPath (some w) q := by
              simp [getPath, hw2]
            rw [hgp]
            exact hrec.2 ch hc2

/-! ### Top-level run helpers -/

theorem main_ok_elim (conn : Nat → Bool) (r : Option REnt)
    (lcs : List (String × LEnt)) (r1 : Option REnt)
    (h : main conn r lcs = Except.ok r1) :
    conn 0 = true ∧ ∃ vs,
      (upload_directory [] (cleanup_phase r) lcs).2 = some (REnt.dir vs) ∧
      r1 = some (REnt.dir vs) := by
  unfold main at h
  cases hc : conn 0 with
  | false => rw [hc] at h; simp at h
  | true =>
    rw [hc] at h
    simp only [if_true] at h
    refine ⟨rfl, ?_⟩
    cases hu : (upload_directory [] (cleanup_phase r) lcs).2 with
    | none => rw [hu] at h; simp at h
    | some v =>
      rw [hu] at h
      cases v with
      | file c => simp at h
      | dir vs =>
        simp at h
        exact ⟨vs, rfl, h.symm⟩

/-- The entry the upload phase starts from is either a remote file (remote
target is a file) or a directory with no visible children (either the
cleanup ran, or the listing failed on an absent target and the upload
created the directory). -/
theorem cleanup_shape (r : Option REnt) :
    (∃ c, ensureEnt (cleanup_phase r) = REnt.file c) ∨
    (∃ cs1, ensureEnt (cleanup_phase r) = REnt.dir cs1 ∧
      ∀ n, isHiddenName n = false → lookupA cs1 n = none) := by
  cases r with
  | none =>
    right
    exact ⟨[], rfl, fun n _ => rfl⟩
  | some e =>
    cases e with
    | file c => exact Or.inl ⟨c, rfl⟩
    | dir cs =>
      right
      refine ⟨(clean_top cs).1, rfl, ?_⟩
      intro n hn
      rw [clean_top_eq]
      simp only
      rw [lookupA_keepHidden, if_neg (by simp [hn])]

/-! ### The fault-free environment recovers the base cleanup -/

theorem fclear_children_clean (deny : List String → Bool) :
    ∀ (p : List String) (cs : List (String × REnt)),
    (∀ q, deny q = false) → fclear_children deny p cs = ([], true) := by
  refine fclear_children.induct deny
    (fun p cs => (∀ q, deny q = false) → fclear_children deny p cs = ([], true))
    ?_ ?_ ?_ ?_ ?_ ?_
  · intro p hf
    simp [fclear_children]
  · intro p n e rest h ih hf
    rw [fclear_children.eq_def]
    simp [h, ih hf]
  · intro p n rest c h hf
    simp [fremove_ok, removeOk, hf] at h
  · intro p n rest ch rem hcc h ih hf
    rw [ih hf] at hcc
    simp at hcc
  · intro p n rest ch rem hcc hemp h ih ih2 hf
    rw [fclear_children.eq_def]
    simp [fremove_ok, removeOk, hf, hcc, hemp, ih2 hf]
  · intro p n rest ch rem hcc hemp h ih hf
    rw [ih hf] at hcc
    obtain ⟨rfl, -⟩ := Prod.mk.injEq .. ▸ hcc.symm
    simp at hemp

theorem fclean_top_clean (deny : List String → Bool)
    (hf : ∀ q, deny q = false) (cs : List (String × REnt)) :
    fclean_top deny cs = (keepHidden cs, true) := by
  induction cs with
  | nil => simp [fclean_top, keepHidden]
  | cons hd tl ih =>
    obtain ⟨n, e⟩ := hd
    by_cases hn : isHiddenName n
    · rw [fclean_top]
      simp [hn, ih, keepHidden, List.filter_cons]
    · cases e with
      | file c =>
        rw [fclean_top]
        simp [hn, fremove_ok, removeOk, hf, ih, keepHidden, List.filter_cons]
      | dir ch =>
        rw [fclean_top]
        simp [hn, fremove_ok, removeOk, hf, frmdir_recursive,
          fclear_children_clean deny [n] ch hf, ih, keepHidden, List.filter_cons]

theorem fcleanup_phase_noFaults (r : Option REnt) :
    fcleanup_phase noFaults r = cleanup_phase r := by
  cases r with
  | none => rfl
  | some e =>
    cases e with
    | file c => rfl
    | dir cs =>
      show some (REnt.dir (fclean_top noFaults cs).1) =
        some (REnt.dir (clean_top cs).1)
      rw [fclean_top_clean noFaults (fun _ => rfl) cs, clean_top_eq]

/-! ### Claim theorems -/

/-- Claim C1: after a successful cleanup phase, every entry that was present
in the remote target directory beforehand no longer exists if its name does
not begin with the hidden-file marker '.', and is preserved untouched if it
does. -/
theorem claim_c1 (cs : List (String × REnt)) :
    cleanup_phase (some (REnt.dir cs)) = some (REnt.dir (keepHidden cs)) ∧
    (∀ n, isHiddenName n = true → lookupA (keepHidden cs) n = lookupA cs n) ∧
    (∀ n, isHiddenName n = false → lookupA (keepHidden cs) n = none) := by
  refine ⟨?_, ?_, ?_⟩
  · simp [cleanup_phase, clean_top_eq]
  · intro n hn
    simp [lookupA_keepHidden, hn]
  · intro n hn
    simp [lookupA_keepHidden, hn]

theorem claim_c1_witness :
    cleanup_phase (some (REnt.dir [(".keep", REnt.file [1]), ("old", REnt.file [2])])) =
      some (REnt.dir [(".keep", REnt.file [1])]) ∧
    lookupA (keepHidden [(".keep", REnt.file [1]), ("old", REnt.file [2])]) ".keep" =
      lookupA [(".keep", REnt.file [1]), ("old", REnt.file [2])] ".keep" ∧
    lookupA (keepHidden [(".keep", REnt.file [1]), ("old", REnt.file [2])]) "old" = none := by
  have h := claim_c1 [(".keep", REnt.file [1]), ("old", REnt.file [2])]
  refine ⟨?_, h.2.1 ".keep" (by decide), h.2.2 "old" (by decide)⟩
  rw [h.1]
  rfl

/-- Claim C2: for a visible entry of the remote target directory the cleanup
loop first attempts a direct delete; the attempt succeeds exactly on files
(and the entry is simply gone), and fails exactly on directories, in which
case — and only then — the recursive directory handling runs, which empties
the directory and removes it. -/
theorem claim_c2 (n : String) (c : List Nat) (ch rest : List (String × REnt))
    (hn : isHiddenName n = false) :
    (removeOk (REnt.file c) = true ∧
      clean_top ((n, REnt.file c) :: rest) = clean_top rest) ∧
    (removeOk (REnt.dir ch) = false ∧ rmdir_recursive (REnt.dir ch) = none ∧
      clean_top ((n, REnt.dir ch) :: rest) = clean_top rest) := by
  refine ⟨⟨rfl, ?_⟩, rfl, rmdir_recursive_dir ch, ?_⟩
  · simp [clean_top, hn, removeOk]
  · simp [clean_top, hn, removeOk, rmdir_recursive_dir]

theorem claim_c2_witness :
    clean_top [("x", REnt.file [2])] = clean_top [] ∧
    rmdir_recursive (REnt.dir [(".h", REnt.file [3])]) = none := by
  have h := claim_c2 "x" [2] [(".h", REnt.file [3])] [] (by decide)
  exact ⟨h.1.2, h.2.2.1⟩

/-- Claim C10: the hidden-name filter applies only to the top level: once a
visible top-level directory is removed recursively, nothing under it
survives (any path below it, hidden-named or not, resolves to nothing), and
the recursive removal deletes every child of a directory without consulting
its name. -/
theorem claim_c10 (cs : List (String × REnt)) (n : String)
    (ch : List (String × REnt)) (hn : isHiddenName n = false)
    (_hl : lookupA cs n = some (REnt.dir ch)) :
    (∀ q, getPath (cleanup_phase (some (REnt.dir cs))) (n :: q) = none) ∧
    (∀ ds : List (String × REnt), clear_children ds = ([], true)) := by
  constructor
  · intro q
    have hk : lookupA (keepHidden cs) n = none := by
      simp [lookupA_keepHidden, hn]
    simp [cleanup_phase, clean_top_eq, getPath, hk]
    cases q <;> simp [getPath]
  · exact clear_children_eq

theorem claim_c10_witness :
    getPath (cleanup_phase (some (REnt.dir
      [("d", REnt.dir [(".h", REnt.file [5])])]))) ["d", ".h"] = none := by
  exact (claim_c10 [("d", REnt.dir [(".h", REnt.file [5])])] "d"
    [(".h", REnt.file [5])] (by decide) (by rfl)).1 [".h"]

/-- Claim C9: a local entry that is neither a regular file nor a directory
is silently skipped by the upload walk: the walk continues exactly as if
the entry were absent, no exception arises from it, and no remote entry is
created for its name. -/
theorem claim_c9 :
    (∀ (p : List String) (e : REnt) (n : String) (rest : List (String × LEnt)),
      upload_items p e ((n, LEnt.other) :: rest) = upload_items p e rest) ∧
    (∀ (lcs : List (String × LEnt)) (cs : List (String × REnt)) (v : REnt)
        (n : String), nodupKeys lcs = true → lookupA lcs n = some LEnt.other →
      ∀ p, (upload_items p (REnt.dir cs) lcs).2 = some v →
        ∃ vs, v = REnt.dir vs ∧ lookupA vs n = lookupA cs n) := by
  constructor
  · intro p e n rest
    exact up_other p e n rest
  · intro lcs cs v n hnd hln p hv
    obtain ⟨vs, rfl, hP⟩ := upload_items_lookup lcs p cs v hnd hv
    exact ⟨vs, rfl, (hP n).2.2 (Or.inr hln)⟩

theorem claim_c9_witness :
    upload_items [] (REnt.dir []) [("s", LEnt.other)] =
      upload_items [] (REnt.dir []) [] ∧
    ∃ vs, (REnt.dir [] : REnt) = REnt.dir vs ∧
      lookupA vs "s" = lookupA ([] : List (String × REnt)) "s" := by
  refine ⟨claim_c9.1 [] (REnt.dir []) "s" [], ?_⟩
  refine claim_c9.2 [("s", LEnt.other)] [] (REnt.dir []) "s" (by rfl) (by rfl) [] ?_
  rw [up_other, up_nil]

/-- Claim C5 as amended: connection failures and upload transfer failures
are fatal — reported as the run's error and aborting it — but the cleanup
phase recovers more than just its opening-listing failure: the handler
enclosing the whole cleanup loop catches ANY exception escaping it,
including a delete failure that is not successfully reinterpreted as
directory handling (e.g. a permission denial on a file, whose fallback
directory listing raises at once), logs a warning, abandons only the
remainder of the cleanup, and lets the run continue into upload.  In the
fault-free environment the fault-aware model coincides with the base
model. -/
theorem claim_c5 :
    (∀ (deny : List String → Bool) (conn : Nat → Bool) (r : Option REnt)
        (lcs : List (String × LEnt)), conn 0 = false →
      fmain deny conn r lcs = Except.error "connection failed") ∧
    (∀ (deny : List String → Bool) (conn : Nat → Bool) (r : Option REnt)
        (lcs : List (String × LEnt)), conn 0 = true →
      (upload_directory [] (fcleanup_phase deny r) lcs).2 = none →
      fmain deny conn r lcs = Except.error "upload failed") ∧
    (∀ (deny : List String → Bool) (conn : Nat → Bool) (r : Option REnt)
        (lcs : List (String × LEnt)), conn 0 = true →
      fmain deny conn r lcs =
        (match (upload_directory [] (fcleanup_phase deny r) lcs).2 with
         | none => Except.error "upload failed"
         | some (REnt.file _) => Except.error "final listing failed"
         | some (REnt.dir vs) => Except.ok (some (REnt.dir vs)))) ∧
    (∀ (deny : List String → Bool) (n : String) (c : List Nat)
        (rest : List (String × REnt)), isHiddenName n = false →
      deny [n] = true →
      fremove_ok deny [n] (REnt.file c) = false ∧
      frmdir_recursive deny [n] (REnt.file c) = some (REnt.file c) ∧
      fclean_top deny ((n, REnt.file c) :: rest) =
        ((n, REnt.file c) :: rest, false) ∧
      fcleanup_phase deny (some (REnt.dir ((n, REnt.file c) :: rest))) =
        some (REnt.dir ((n, REnt.file c) :: rest))) ∧
    (∀ cs : List (String × REnt), fclean_top noFaults cs = clean_top cs) ∧
    (∀ (conn : Nat → Bool) (r : Option REnt) (lcs : List (String × LEnt)),
      fmain noFaults conn r lcs = main conn r lcs) := by
  refine ⟨?_, ?_, ?_, ?_, ?_, ?_⟩
  · intro deny conn r lcs hc
    unfold fmain
    rw [hc]
    rfl
  · intro deny conn r lcs hc hu
    unfold fmain
    rw [hc, hu]
    rfl
  · intro deny conn r lcs hc
    unfold fmain
    rw [hc]
    rfl
  · intro deny n c rest hn hdeny
    have h1 : fremove_ok deny [n] (REnt.file c) = false := by
      simp [fremove_ok, hdeny]
    have h2 : frmdir_recursive deny [n] (REnt.file c) = some (REnt.file c) := rfl
    have h3 : fclean_top deny ((n, REnt.file c) :: rest) =
        ((n, REnt.file c) :: rest, false) := by
      rw [fclean_top]
      simp [hn, h1, h2]
    refine ⟨h1, h2, h3, ?_⟩
    show some (REnt.dir (fclean_top deny ((n, REnt.file c) :: rest)).1) = _
    rw [h3]
  · intro cs
    rw [fclean_top_clean noFaults (fun _ => rfl) cs, clean_top_eq]
  · intro conn r lcs
    unfold fmain main
    rw [fcleanup_phase_noFaults]

/-- Claim C5 counterexample, refuting the original claim on the code: under
a permission denial that makes `sftp.remove` fail on the visible remote
file `f`, the fallback `rmdir_recursive` raises at once (its opening
listing fails on a file), so this delete failure is NOT reinterpreted as
directory handling — yet it does not propagate and does not abort: the
cleanup handler at lines 66-67 warns, and the whole run still completes
successfully. -/
theorem claim_c5_counterexample :
    fremove_ok (denyOn ["f"]) ["f"] (REnt.file [1]) = false ∧
    frmdir_recursive (denyOn ["f"]) ["f"] (REnt.file [1]) =
      some (REnt.file [1]) ∧
    fmain (denyOn ["f"]) (fun _ => true)
        (some (REnt.dir [("f", REnt.file [1])])) [] =
      Except.ok (some (REnt.dir [("f", REnt.file [1])])) := by
  refine ⟨by decide, rfl, ?_⟩
  have hclean : fcleanup_phase (denyOn ["f"])
      (some (REnt.dir [("f", REnt.file [1])])) =
      some (REnt.dir [("f", REnt.file [1])]) := by
    show some (REnt.dir (fclean_top (denyOn ["f"]) [("f", REnt.file [1])]).1) = _
    rw [fclean_top]
    simp [isHiddenName, fremove_ok, denyOn, frmdir_recursive]
  have hup : (upload_directory [] (fcleanup_phase (denyOn ["f"])
      (some (REnt.dir [("f", REnt.file [1])]))) []).2 =
      some (REnt.dir [("f", REnt.file [1])]) := by
    rw [hclean]
    show (upload_items [] (REnt.dir [("f", REnt.file [1])]) []).2 = _
    rw [up_nil]
  unfold fmain
  rw [hup]
  rfl

theorem claim_c5_witness :
    fmain (denyOn ["x"]) (fun _ => false) none [] =
      Except.error "connection failed" ∧
    fclean_top (denyOn ["x"]) [("x", REnt.file [4])] =
      ([("x", REnt.file [4])], false) ∧
    fmain noFaults (fun _ => true) none [] = main (fun _ => true) none [] := by
  refine ⟨claim_c5.1 (denyOn ["x"]) (fun _ => false) none [] rfl, ?_,
    claim_c5.2.2.2.2.2 (fun _ => true) none []⟩
  exact (claim_c5.2.2.2.1 (denyOn ["x"]) "x" [4] [] (by decide) (by decide)).2.2.1

/-- Claim C6: a file-transfer failure during upload aborts the whole run and
is re-raised at the process boundary; the transfers actually performed are
always an initial segment of the traversal-order file schedule (nothing is
transferred past the failure point; a fully successful run performs the
whole schedule), and a failing put aborts its loop at once. -/
theorem claim_c6 :
    (∀ (conn : Nat → Bool) (r : Option REnt) (lcs : List (String × LEnt)),
      conn 0 = true → (upload_directory [] (cleanup_phase r) lcs).2 = none →
      main conn r lcs = Except.error "upload failed") ∧
    (∀ (p : List String) (e : REnt) (lcs : List (String × LEnt)),
      ∃ t2, fileSeq p lcs = (upload_items p e lcs).1 ++ t2) ∧
    (∀ (p : List String) (e : REnt) (lcs : List (String × LEnt)),
      (upload_items p e lcs).2.isSome = true →
      (upload_items p e lcs).1 = fileSeq p lcs) ∧
    (∀ (p : List String) (e : REnt) (n : String) (c : List Nat)
        (rest : List (String × LEnt)), putChild e n c = none →
      upload_items p e ((n, LEnt.file c) :: rest) = ([], none)) := by
  refine ⟨?_, ?_, ?_, ?_⟩
  · intro conn r lcs hc hu
    unfold main
    rw [hc, hu]
    rfl
  · intro p e lcs
    exact (upload_items_trace p lcs e).1
  · intro p e lcs
    exact (upload_items_trace p lcs e).2
  · intro p e n c rest h
    exact upf_none p e n c rest h

theorem claim_c6_witness :
    main (fun _ => true) (some (REnt.file [0])) [("a", LEnt.file [1])] =
      Except.error "upload failed" ∧
    upload_items [] (REnt.file []) [("a", LEnt.file [1])] = ([], none) := by
  constructor
  · refine claim_c6.1 (fun _ => true) (some (REnt.file [0])) [("a", LEnt.file [1])] rfl ?_
    show (upload_items [] (REnt.file [0]) [("a", LEnt.file [1])]).2 = none
    rw [up_file]
    rfl
  · exact claim_c6.2.2.2 [] (REnt.file []) "a" [1] [] rfl

/-- Claim C7: a single connection attempt is made to the fixed host and port
with the fixed credentials and a positive (bounded) timeout, unknown host
identities are always accepted, a connection failure surfaces as the
reported fatal error of the run, and no retry happens: the run depends on
nothing but the first attempt's outcome. -/
theorem claim_c7 :
    acceptsUnknownHosts missing_host_key_policy = true ∧
    HOST = "37.140.192.181" ∧ PORT = 22 ∧ USERNAME = "u3372484" ∧
    PASSWORD = "j758aqXHELv2l2AM" ∧ 0 < CONNECT_TIMEOUT ∧
    (∀ (conn : Nat → Bool) (r : Option REnt) (lcs : List (String × LEnt)),
      conn 0 = false → main conn r lcs = Except.error "connection failed") ∧
    (∀ (conn conn2 : Nat → Bool) (r : Option REnt) (lcs : List (String × LEnt)),
      conn 0 = conn2 0 → main conn r lcs = main conn2 r lcs) := by
  refine ⟨rfl, rfl, rfl, rfl, rfl, by decide, ?_, ?_⟩
  · intro conn r lcs hc
    unfold main
    rw [hc]
    rfl
  · intro conn conn2 r lcs h
    unfold main
    rw [h]

theorem claim_c7_witness :
    main (fun _ => false) (some (REnt.dir [])) [] =
      Except.error "connection failed" ∧
    main (fun _ => true) none [] = main (fun n => n == n) none [] := by
  exact ⟨claim_c7.2.2.2.2.2.2.1 (fun _ => false) (some (REnt.dir [])) [] rfl,
    claim_c7.2.2.2.2.2.2.2 (fun _ => true) (fun n => n == n) none [] rfl⟩

/-- Claim C3 counterexample: run `upload_directory` where the local
directory is empty and the remote path is occupied by a file.  The
existence probe succeeds, so nothing is created; the run succeeds, yet the
local directory (the root of the walk) has no corresponding remote
directory — the remote entry is still a file. -/
theorem claim_c3_counterexample :
    nodeL (LEnt.dir ([] : List (String × LEnt))) [] = some (LEnt.dir []) ∧
    (upload_directory [] (some (REnt.file [7])) ([] : List (String × LEnt))).2 =
      some (REnt.file [7]) ∧
    isDirO (upload_directory [] (some (REnt.file [7]))
      ([] : List (String × LEnt))).2 = false := by
  refine ⟨rfl, ?_, ?_⟩
  · show (upload_items [] (REnt.file [7]) []).2 = some (REnt.file [7])
    rw [up_nil]
  · show isDirO (upload_items [] (REnt.file [7]) []).2 = false
    rw [up_nil]
    rfl

/-- Claim C3 as amended: `upload_directory` probes the remote directory and
creates it exactly when the probe finds nothing; a transfer unconditionally
overwrites an existing remote file of the same name; after a successful run
every local file has a byte-identical remote counterpart at the matching
relative path; and every local directory either has a corresponding remote
directory, or its remote path was already occupied by a remote file — which
a successful run permits only when that local directory contains no regular
file and no subdirectory (the existence probe does not distinguish kinds,
so such a remote file is kept). -/
theorem claim_c3_amended (lcs : List (String × LEnt)) (p : List String)
    (cur : Option REnt) (v : REnt) (hw : lwfL lcs = true)
    (hv : (upload_directory p cur lcs).2 = some v) :
    (ensureEnt none = REnt.dir [] ∧ ∀ e, ensureEnt (some e) = e) ∧
    (∀ (cs : List (String × REnt)) (n : String) (c old : List Nat),
      lookupA cs n = some (REnt.file old) →
      putChild (REnt.dir cs) n c = some (REnt.dir (setA cs n (REnt.file c)))) ∧
    (∀ (q : List String) (c : List Nat),
      nodeL (LEnt.dir lcs) q = some (LEnt.file c) →
      getPath (some v) q = some (REnt.file c)) ∧
    (∀ (q : List String) (ch : List (String × LEnt)),
      nodeL (LEnt.dir lcs) q = some (LEnt.dir ch) →
      (∃ ds, getPath (some v) q = some (REnt.dir ds)) ∨
      (∃ bc, getPath (some v) q = some (REnt.file bc) ∧ allOther ch = true)) := by
  refine ⟨⟨rfl, fun e => rfl⟩, ?_, ?_, ?_⟩
  · intro cs n c old hl
    exact putChild_of_not_dir cs n c (by rw [hl]; rfl)
  · intro q c hc
    exact (upload_node q lcs p (ensureEnt cur) v hw hv).1 c hc
  · intro q ch hc
    exact (upload_node q lcs p (ensureEnt cur) v hw hv).2 ch hc

theorem claim_c3_witness :
    lwfL [("a", LEnt.file [9])] = true ∧
    (upload_directory [] none [("a", LEnt.file [9])]).2 =
      some (REnt.dir [("a", REnt.file [9])]) ∧
    getPath (some (REnt.dir [("a", REnt.file [9])])) ["a"] =
      some (REnt.file [9]) := by
  have hw : lwfL [("a", LEnt.file [9])] = true := by
    rw [lwfL_cons_file]
    simp [hasKey, lwfL_nil]
  have hv : (upload_directory [] none [("a", LEnt.file [9])]).2 =
      some (REnt.dir [("a", REnt.file [9])]) := by
    show (upload_items [] (REnt.dir []) [("a", LEnt.file [9])]).2 =
      some (REnt.dir [("a", REnt.file [9])])
    rw [upf_some [] (REnt.dir []) "a" [9] [] (REnt.dir [("a", REnt.file [9])])
      (by rfl)]
    rw [up_nil]
  refine ⟨hw, hv, ?_⟩
  exact (claim_c3_amended [("a", LEnt.file [9])] [] none
    (REnt.dir [("a", REnt.file [9])]) hw hv).2.2.1 ["a"] [9] (by rfl)

/-- Claim C4: when the remote target directory is absent, the cleanup
listing fails, the failure is recovered locally (the cleanup phase changes
nothing) and the run carries on into the upload phase and completes
successfully. -/
theorem claim_c4 (conn : Nat → Bool) (lcs : List (String × LEnt))
    (hc : conn 0 = true) (hw : lwfL lcs = true) :
    cleanup_phase none = none ∧
    ∃ vs, main conn none lcs = Except.ok (some (REnt.dir vs)) := by
  refine ⟨rfl, ?_⟩
  have hsome : (upload_items [] (REnt.dir []) lcs).2.isSome = true := by
    rw [upload_items_isSome lcs hw [] []]
    exact canUpItems_nil_left lcs
  obtain ⟨v, hv⟩ := Option.isSome_iff_exists.mp hsome
  obtain ⟨vs, rfl, -⟩ := upload_items_lookup lcs [] [] v (lwf_nodup lcs hw) hv
  refine ⟨vs, ?_⟩
  unfold main
  rw [hc]
  have hud : (upload_directory [] (cleanup_phase none) lcs).2 =
      some (REnt.dir vs) := hv
  rw [hud]
  rfl

/-- The local build tree of testable-properties Scenario A, `dist` holding
`index.html` and `assets/app.js`. -/
theorem claim_c4_witness :
    cleanup_phase none = none ∧
    ∃ vs, main (fun _ => true) none
      [("index.html", LEnt.file [1]),
       ("assets", LEnt.dir [("app.js", LEnt.file [2])])] =
      Except.ok (some (REnt.dir vs)) := by
  refine claim_c4 (fun _ => true) _ rfl ?_
  rw [lwfL_cons_file]
  simp [hasKey, lwfL_nil]
  rw [lwfL_cons_dir]
  simp [hasKey, lwfL_nil]
  rw [lwfL_cons_file]
  simp [hasKey, lwfL_nil]

/-- Claim C8: running the whole connect-clean-upload-list sequence a second
time, with the same local tree, succeeds again and leaves the remote tree
in the same state: every remote path below the target directory resolves to
exactly the same entry as after the first run (the listing order of the
target directory's own children is not part of the tree state). -/
theorem claim_c8 (conn : Nat → Bool) (r r1 : Option REnt)
    (lcs : List (String × LEnt)) (hw : lwfL lcs = true)
    (h1 : main conn r lcs = Except.ok r1) :
    ∃ r2, main conn r1 lcs = Except.ok r2 ∧
      ∀ (n : String) (q : List String),
        getPath r2 (n :: q) = getPath r1 (n :: q) := by
  obtain ⟨hc, vs, hup, rfl⟩ := main_ok_elim conn r lcs r1 h1
  have hnd := lwf_nodup lcs hw
  rcases cleanup_shape r with ⟨c, hE⟩ | ⟨cs1, hE, hvis⟩
  · exfalso
    have hupf : (upload_items [] (REnt.file c) lcs).2 = some (REnt.dir vs) := by
      rw [← hE]
      exact hup
    rw [up_file] at hupf
    cases hao : allOther lcs with
    | true => rw [hao] at hupf; simp at hupf
    | false => rw [hao] at hupf; simp at hupf
  · have hup1 : (upload_items [] (REnt.dir cs1) lcs).2 = some (REnt.dir vs) := by
      rw [← hE]
      exact hup
    obtain ⟨vs0, heq, hP1⟩ :=
      upload_items_lookup lcs [] cs1 (REnt.dir vs) hnd hup1
    injection heq with hh
    subst hh
    have hcan1 : canUpItems cs1 lcs = true := by
      rw [← upload_items_isSome lcs hw [] cs1, hup1]
      rfl
    have hpt1 := (canUpItems_forall cs1 lcs).mp hcan1
    have hpt2 : ∀ x ∈ lcs, condB (keepHidden vs) x = true := by
      intro x hx
      obtain ⟨n, ent⟩ := x
      have hln : lookupA lcs n = some ent := lookupA_of_mem lcs n ent hnd hx
      cases ent with
      | other => simp [condB]
      | file c =>
        cases hh : isHiddenName n with
        | false => simp [condB, lookupA_keepHidden, hh, isDirO]
        | true =>
          have hfn := (hP1 n).1 c hln
          simp [condB, lookupA_keepHidden, hh, hfn, isDirO]
      | dir ch =>
        have hlch : lwfL ch = true := lwf_lookup_dir lcs n ch hw hln
        obtain ⟨w1, hw1, hw2⟩ := (hP1 n).2.1 ch hln
        cases hh : isHiddenName n with
        | false =>
          simp [condB, lookupA_keepHidden, hh, ensureEnt, canUpItems_nil_left]
        | true =>
          have hkh : lookupA (keepHidden vs) n = some w1 := by
            simp [lookupA_keepHidden, hh, hw2]
          cases w1 with
          | file bc =>
            cases hE2 : ensureEnt (lookupA cs1 n) with
            | dir cs2 =>
              rw [hE2] at hw1
              obtain ⟨xx, hxx, -⟩ :=
                upload_items_lookup ch ([] ++ [n]) cs2 (REnt.file bc)
                  (lwf_nodup ch hlch) hw1
              simp at hxx
            | file c2 =>
              rw [hE2, up_file] at hw1
              cases hao : allOther ch with
              | false => rw [hao] at hw1; simp at hw1
              | true => simp [condB, hkh, ensureEnt, hao]
          | dir ws1 =>
            have hidem := upload_items_idem ch hlch ([] ++ [n])
              (ensureEnt (lookupA cs1 n)) (REnt.dir ws1) hw1
            have hcan : canUpItems ws1 ch = true := by
              rw [← upload_items_isSome ch hlch ([] ++ [n]) ws1, hidem]
              rfl
            simp [condB, hkh, ensureEnt, hcan]
    have hcan2 : canUpItems (keepHidden vs) lcs = true :=
      (canUpItems_forall (keepHidden vs) lcs).mpr hpt2
    have hsome2 : (upload_items [] (REnt.dir (keepHidden vs)) lcs).2.isSome = true := by
      rw [upload_items_isSome lcs hw [] (keepHidden vs)]
      exact hcan2
    obtain ⟨v2, hv2⟩ := Option.isSome_iff_exists.mp hsome2
    obtain ⟨ws, rfl, hP2⟩ :=
      upload_items_lookup lcs [] (keepHidden vs) v2 hnd hv2
    have hname : ∀ n, lookupA ws n = lookupA vs n := by
      intro n
      cases hln : lookupA lcs n with
      | none =>
        have e2 := (hP2 n).2.2 (Or.inl hln)
        have e1 := (hP1 n).2.2 (Or.inl hln)
        rw [e2, e1, lookupA_keepHidden]
        cases hh : isHiddenName n with
        | true => simp [hh, e1]
        | false => simp [hh, hvis n hh]
      | some ent =>
        cases ent with
        | file c =>
          rw [(hP2 n).1 c hln, (hP1 n).1 c hln]
        | other =>
          have e2 := (hP2 n).2.2 (Or.inr hln)
          have e1 := (hP1 n).2.2 (Or.inr hln)
          rw [e2, e1, lookupA_keepHidden]
          cases hh : isHiddenName n with
          | true => simp [hh, e1]
          | false => simp [hh, hvis n hh]
        | dir ch =>
          have hlch : lwfL ch = true := lwf_lookup_dir lcs n ch hw hln
          obtain ⟨w1, hw1, hw2⟩ := (hP1 n).2.1 ch hln
          obtain ⟨w2, hw21, hw22⟩ := (hP2 n).2.1 ch hln
          rw [hw22, hw2]
          cases hh : isHiddenName n with
          | false =>
            have ha : lookupA (keepHidden vs) n = none := by
              simp [lookupA_keepHidden, hh]
            have hb : lookupA cs1 n = none := hvis n hh
            rw [ha] at hw21
            rw [hb] at hw1
            rw [hw1] at hw21
            injection hw21 with hww
            rw [hww]
          | true =>
            have ha : lookupA (keepHidden vs) n = some w1 := by
              simp [lookupA_keepHidden, hh, hw2]
            rw [ha] at hw21
            have hidem : (upload_items ([] ++ [n]) (ensureEnt (some w1)) ch).2 =
                some w1 :=
              upload_items_idem ch hlch ([] ++ [n])
                (ensureEnt (lookupA cs1 n)) w1 hw1
            rw [hidem] at hw21
            injection hw21 with hww
            rw [hww]
    refine ⟨some (REnt.dir ws), ?_, ?_⟩
    · unfold main
      rw [hc]
      have hclean : cleanup_phase (some (REnt.dir vs)) =
          some (REnt.dir (keepHidden vs)) := by
        simp [cleanup_phase, clean_top_eq]
      have hud : (upload_directory [] (cleanup_phase (some (REnt.dir vs))) lcs).2 =
          some (REnt.dir ws) := by
        rw [hclean]
        exact hv2
      rw [hud]
      rfl
    · intro n q
      simp only [getPath]
      rw [hname n]

theorem claim_c8_witness :
    ∃ r2, main (fun _ => true) (some (REnt.dir [("a", REnt.file [3])]))
        [("a", LEnt.file [3])] = Except.ok r2 ∧
      ∀ (n : String) (q : List String),
        getPath r2 (n :: q) =
        getPath (some (REnt.dir [("a", REnt.file [3])])) (n :: q) := by
  have hw : lwfL [("a", LEnt.file [3])] = true := by
    rw [lwfL_cons_file]
    simp [hasKey, lwfL_nil]
  have hmain : main (fun _ => true) none [("a", LEnt.file [3])] =
      Except.ok (some (REnt.dir [("a", REnt.file [3])])) := by
    have hup : (upload_directory [] (cleanup_phase none) [("a", LEnt.file [3])]).2 =
        some (REnt.dir [("a", REnt.file [3])]) := by
      show (upload_items [] (REnt.dir []) [("a", LEnt.file [3])]).2 =
        some (REnt.dir [("a", REnt.file [3])])
      rw [upf_some [] (REnt.dir []) "a" [3] [] (REnt.dir [("a", REnt.file [3])])
        (by rfl)]
      rw [up_nil]
    unfold main
    rw [hup]
    rfl
  exact claim_c8 (fun _ => true) none (some (REnt.dir [("a", REnt.file [3])]))
    [("a", LEnt.file [3])] hw hmain

end Deploy
